import Mathlib

/-!
Verification of `scripts/generate_wordnet_vocab.py`.

The script reads every noun synset from WordNet, computes per synset a
hypernym ("ancestor") chain, deduplicates by the first lemma name, sorts
the rendered lines and writes a header followed by the data lines.

Shallow embedding: a WordNet snapshot is a list of `Synset` records in
the enumeration order of `wn.all_synsets(pos=wn.NOUN)`.  A synset's
`hypernyms` field holds the offsets of its direct hypernyms (the nltk
objects are identified by their offsets).  Fallible operations (the
`lemmas()[0]` index that can raise `IndexError`) return `Res.err`; the
`while True` loop of `get_hypernym_chain` is embedded with explicit fuel
and `Res.diverge` marks fuel exhaustion, so that termination of the loop
is a provable statement rather than an assumption.
-/

set_option maxRecDepth 10000

/-- A WordNet noun synset: numeric database offset, the ordered lemma
names, and the offsets of the direct hypernyms in order. -/
structure Synset where
  offset : Nat
  lemmas : List String
  hypernyms : List Nat
deriving DecidableEq, Repr

/-- Result of running a piece of the script: normal value, uncaught
exception (`err`, e.g. `IndexError` from `lemmas()[0]`), or fuel
exhaustion of the embedded loop (`diverge`). -/
inductive Res (α : Type) where
  | ok : α → Res α
  | err : Res α
  | diverge : Res α
deriving DecidableEq, Repr

/-- Resolve a hypernym reference: the first synset of the snapshot with
the given offset (nltk hands back the synset object itself). -/
def findSynset (db : List Synset) (o : Nat) : Option Synset :=
  db.find? (fun s => s.offset == o)

/-- Fuel sufficient for the cycle-guarded walk: one more than the number
of distinct offsets occurring in the snapshot. -/
def chainFuel (db : List Synset) : Nat :=
  (db.map Synset.offset).toFinset.card + 1

/-- The loop body of `get_hypernym_chain`: repeatedly take the first
hypernym, stop on no hypernyms or on an already-visited offset
(`parent.offset() in seen`), otherwise record the parent and continue.
Returns the visited parent synsets in order; `err` if a visited parent
has no lemmas (`parent.lemmas()[0]` raises). -/
def chainSynsets (db : List Synset) : Nat → Synset → List Nat → Res (List Synset)
  | 0, _, _ => .diverge
  | fuel + 1, current, seen =>
    match current.hypernyms with
    | [] => .ok []
    | h :: _ =>
      if h ∈ seen then .ok []
      else
        match findSynset db h with
        | none => .err
        | some parent =>
          match parent.lemmas with
          | [] => .err
          | _ :: _ =>
            match chainSynsets db fuel parent (h :: seen) with
            | .ok rest => .ok (parent :: rest)
            | .err => .err
            | .diverge => .diverge

/-- `get_hypernym_chain(synset)`: the chain of first-lemma names of the
visited parents, starting from an empty `seen` set. -/
def getHypernymChain (db : List Synset) (s : Synset) : Res (List String) :=
  match chainSynsets db (chainFuel db) s [] with
  | .ok l => .ok (l.map (fun p => p.lemmas.headD ""))
  | .err => .err
  | .diverge => .diverge

/-- Little-endian decimal digits of `n` (empty for `n = 0`), with
explicit fuel; `fuel = n` always suffices. -/
def decChars : Nat → Nat → List Char
  | 0, _ => []
  | fuel + 1, n =>
    if n = 0 then [] else Nat.digitChar (n % 10) :: decChars fuel (n / 10)

/-- Decimal rendering of a natural number, as Python's `"%d"`. -/
def decStr (n : Nat) : String :=
  if n = 0 then "0" else String.mk (decChars n n).reverse

/-- Python's `f"{offset:08d}"`: the decimal rendering left-padded with
zeros to a minimum width of 8. -/
def formatOffset (n : Nat) : String :=
  String.mk (List.replicate (8 - (decStr n).length) '0') ++ decStr n

/-- `"|".join(hypernym_chain) if hypernym_chain else ""`. -/
def renderChain (chain : List String) : String :=
  if chain.isEmpty then "" else String.intercalate "|" chain

/-- `f"{name}\t{synset_id}\t{chain_str}"`. -/
def renderLine (name idStr chainStr : String) : String :=
  name ++ "\t" ++ idStr ++ "\t" ++ chainStr

/-- The main loop over the synsets: take the first lemma name (`err` if
the lemma list is empty), skip the synset if the name was seen, else
record the name and emit the rendered line. -/
def buildLines (db : List Synset) : List Synset → List String → Res (List String)
  | [], _ => .ok []
  | s :: rest, seen =>
    match s.lemmas with
    | [] => .err
    | name :: _ =>
      if name ∈ seen then buildLines db rest seen
      else
        match getHypernymChain db s with
        | .ok ch =>
          match buildLines db rest (name :: seen) with
          | .ok ls => .ok (renderLine name (formatOffset s.offset) (renderChain ch) :: ls)
          | .err => .err
          | .diverge => .diverge
        | .err => .err
        | .diverge => .diverge

/-- Lexicographic comparison of character lists by code point — the
comparison Python's `<`/`sort` uses on strings. -/
def lexLe : List Char → List Char → Bool
  | [], _ => true
  | _ :: _, [] => false
  | a :: as, b :: bs =>
    if a.toNat < b.toNat then true
    else if b.toNat < a.toNat then false
    else lexLe as bs

/-- Python's string `≤`: code-point lexicographic order. -/
def strLe (a b : String) : Bool :=
  lexLe a.data b.data

/-- `lines.sort()`: Python's sort is a stable ascending sort; on a list
of strings any sort producing an ascending permutation yields the same
list, so insertion sort by the string order is an exact model. -/
def sortLines (ls : List String) : List String :=
  List.insertionSort (fun a b => strLe a b = true) ls

/-- The three header lines written before the data, the third stating
the number of data lines. -/
def headerLines (n : Nat) : List String :=
  ["# WordNet nouns vocabulary for Photon",
   "# Format: term<TAB>synset_id<TAB>hypernym_chain (pipe-separated)",
   "# Generated from WordNet 3.0 — " ++ decStr n ++ " terms"]

/-- The whole run of `main` up to the write: build, sort, prepend the
header. The result is the list of lines of the output file. -/
def mainLines (db : List Synset) : Res (List String) :=
  match buildLines db db [] with
  | .ok ls => .ok (headerLines (sortLines ls).length ++ sortLines ls)
  | .err => .err
  | .diverge => .diverge

/-- The byte content of the output file: every line, the last included,
is terminated by a newline. -/
def mainBytes (db : List Synset) : Res String :=
  match mainLines db with
  | .ok ls => .ok (String.join (ls.map (fun l => l ++ "\n")))
  | .err => .err
  | .diverge => .diverge

/-- The sequence of `f.write` calls `main` performs: one chunk per line,
newline included. -/
def mainChunks (db : List Synset) : Res (List String) :=
  match mainLines db with
  | .ok ls => .ok (ls.map (fun l => l ++ "\n"))
  | .err => .err
  | .diverge => .diverge

/-- First tab-delimited column of a rendered line. -/
def firstField (s : String) : String :=
  String.mk (s.data.takeWhile (fun c => c != '\t'))

/-- Decimal value of a digit string. -/
def decValue (s : String) : Nat :=
  s.data.foldl (fun a c => 10 * a + (c.toNat - 48)) 0

/-- A snapshot is closed when every hypernym offset resolves to a
synset; in nltk this always holds since hypernyms are object references. -/
def Closed (db : List Synset) : Prop :=
  ∀ s ∈ db, ∀ o ∈ s.hypernyms, (findSynset db o).isSome = true

/-- Model of `open(output_path, "w")` followed by sequential `f.write`
calls: opening truncates the target at once; a run that fails after `k`
writes leaves the concatenation of the first `k` chunks, a completed run
leaves all chunks.  The prior contents at the path do not survive the
open. -/
def runWrite (_prior : Option String) (chunks : List String) (failAfter : Option Nat) :
    Option String :=
  match failAfter with
  | none => some (String.join chunks)
  | some k => some (String.join (chunks.take k))

/-- Variant of `chainSynsets` whose visited set is a `Finset` instead of
a list: the Python `set` is used only through membership and insertion,
so any set representation must give the same run. -/
def chainSynsetsF (db : List Synset) : Nat → Synset → Finset Nat → Res (List Synset)
  | 0, _, _ => .diverge
  | fuel + 1, current, seen =>
    match current.hypernyms with
    | [] => .ok []
    | h :: _ =>
      if h ∈ seen then .ok []
      else
        match findSynset db h with
        | none => .err
        | some parent =>
          match parent.lemmas with
          | [] => .err
          | _ :: _ =>
            match chainSynsetsF db fuel parent (insert h seen) with
            | .ok rest => .ok (parent :: rest)
            | .err => .err
            | .diverge => .diverge

/-- `getHypernymChain` with a `Finset` visited set. -/
def getHypernymChainF (db : List Synset) (s : Synset) : Res (List String) :=
  match chainSynsetsF db (chainFuel db) s ∅ with
  | .ok l => .ok (l.map (fun p => p.lemmas.headD ""))
  | .err => .err
  | .diverge => .diverge

/-- The main loop with a `Finset` for `seen_names`. -/
def buildLinesF (db : List Synset) : List Synset → Finset String → Res (List String)
  | [], _ => .ok []
  | s :: rest, seen =>
    match s.lemmas with
    | [] => .err
    | name :: _ =>
      if name ∈ seen then buildLinesF db rest seen
      else
        match getHypernymChainF db s with
        | .ok ch =>
          match buildLinesF db rest (insert name seen) with
          | .ok ls => .ok (renderLine name (formatOffset s.offset) (renderChain ch) :: ls)
          | .err => .err
          | .diverge => .diverge
        | .err => .err
        | .diverge => .diverge

/-- `mainLines` with `Finset`-backed visited sets. -/
def mainLinesF (db : List Synset) : Res (List String) :=
  match buildLinesF db db ∅ with
  | .ok ls => .ok (headerLines (sortLines ls).length ++ sortLines ls)
  | .err => .err
  | .diverge => .diverge

/-- `mainBytes` with `Finset`-backed visited sets. -/
def mainBytesF (db : List Synset) : Res String :=
  match mainLinesF db with
  | .ok ls => .ok (String.join (ls.map (fun l => l ++ "\n")))
  | .err => .err
  | .diverge => .diverge

/-- The three-sense example snapshot of the specification: dog → canine
→ mammal. -/
def exDB : List Synset :=
  [⟨1, ["dog"], [2]⟩, ⟨2, ["canine"], [3]⟩, ⟨3, ["mammal"], []⟩]

/-- The lines `main` produces on `exDB`. -/
def exFile : List String :=
  ["# WordNet nouns vocabulary for Photon",
   "# Format: term<TAB>synset_id<TAB>hypernym_chain (pipe-separated)",
   "# Generated from WordNet 3.0 — 3 terms",
   "canine\t00000002\tmammal",
   "dog\t00000001\tcanine|mammal",
   "mammal\t00000003\t"]

/-- The write chunks `main` issues on `exDB`. -/
def exChunks : List String :=
  exFile.map (fun l => l ++ "\n")

/-- A snapshot with a two-cycle in the hypernym graph. -/
def cycDB : List Synset :=
  [⟨1, ["a"], [2]⟩, ⟨2, ["b"], [1]⟩]

/-- The first synset of `cycDB`. -/
def cycS : Synset :=
  ⟨1, ["a"], [2]⟩

/-- A snapshot in which two distinct ancestors share the first lemma
"x": the chain of the first synset repeats that term. -/
def homDB : List Synset :=
  [⟨0, ["s"], [1]⟩, ⟨1, ["x"], [2]⟩, ⟨2, ["x"], []⟩]

/-- The first synset of `homDB`. -/
def homS : Synset :=
  ⟨0, ["s"], [1]⟩

/-- A snapshot whose only synset is its own first hypernym. -/
def selfDB : List Synset :=
  [⟨7, ["w"], [7]⟩]

/-- The synset of `selfDB`. -/
def selfS : Synset :=
  ⟨7, ["w"], [7]⟩

/-- A snapshot containing a synset with an empty lemma list. -/
def badDB : List Synset :=
  [⟨5, [], []⟩]

/-! ### Order properties of the string comparison -/

theorem lexLe_total : ∀ as bs : List Char, lexLe as bs = true ∨ lexLe bs as = true := by
  intro as
  induction as with
  | nil => intro bs; left; rfl
  | cons a as ih =>
    intro bs
    cases bs with
    | nil => right; rfl
    | cons b bs =>
      by_cases hab : a.toNat < b.toNat
      · left; simp [lexLe, hab]
      · by_cases hba : b.toNat < a.toNat
        · right; simp [lexLe, hba]
        · rcases ih bs with h | h
          · left; simp [lexLe, hab, hba, h]
          · right; simp [lexLe, hab, hba, h]

theorem lexLe_trans :
    ∀ as bs cs : List Char, lexLe as bs = true → lexLe bs cs = true → lexLe as cs = true := by
  intro as
  induction as with
  | nil => intro bs cs h1 h2; rfl
  | cons a as ih =>
    intro bs cs h1 h2
    cases bs with
    | nil => simp [lexLe] at h1
    | cons b bs =>
      cases cs with
      | nil => simp [lexLe] at h2
      | cons c cs =>
        have e1 : a.toNat < b.toNat ∨ (a.toNat = b.toNat ∧ lexLe as bs = true) := by
          by_cases hab : a.toNat < b.toNat
          · exact Or.inl hab
          · by_cases hba : b.toNat < a.toNat
            · simp [lexLe, hab, hba] at h1
            · exact Or.inr ⟨by omega, by simpa [lexLe, hab, hba] using h1⟩
        have e2 : b.toNat < c.toNat ∨ (b.toNat = c.toNat ∧ lexLe bs cs = true) := by
          by_cases hbc : b.toNat < c.toNat
          · exact Or.inl hbc
          · by_cases hcb : c.toNat < b.toNat
            · simp [lexLe, hbc, hcb] at h2
            · exact Or.inr ⟨by omega, by simpa [lexLe, hbc, hcb] using h2⟩
        rcases e1 with hab | ⟨hab, r1⟩
        · rcases e2 with hbc | ⟨hbc, r2⟩ <;>
            simp [lexLe, show a.toNat < c.toNat by omega]
        · rcases e2 with hbc | ⟨hbc, r2⟩
          · simp [lexLe, show a.toNat < c.toNat by omega]
          · have hred : lexLe (a :: as) (c :: cs) = lexLe as cs := by
              simp [lexLe, show ¬ a.toNat < c.toNat by omega, show ¬ c.toNat < a.toNat by omega]
            rw [hred]
            exact ih bs cs r1 r2

theorem sortLines_sorted (ls : List String) :
    List.Sorted (fun a b => strLe a b = true) (sortLines ls) :=
  @List.sorted_insertionSort String (fun a b => strLe a b = true) _
    ⟨fun a b => lexLe_total a.data b.data⟩
    ⟨fun a b c => lexLe_trans a.data b.data c.data⟩ ls

theorem sortLines_perm (ls : List String) : (sortLines ls).Perm ls :=
  List.perm_insertionSort (fun a b => strLe a b = true) ls

/-! ### Structure of the produced file -/

theorem mainLines_inv {db : List Synset} {file : List String} (h : mainLines db = .ok file) :
    ∃ ls, buildLines db db [] = .ok ls ∧
      file = headerLines (sortLines ls).length ++ sortLines ls ∧
      file.drop 3 = sortLines ls := by
  cases hb : buildLines db db [] with
  | ok ls =>
    simp only [mainLines, hb, Res.ok.injEq] at h
    refine ⟨ls, rfl, h.symm, ?_⟩
    rw [← h]
    have h3 : (headerLines (sortLines ls).length).length = 3 := rfl
    conv_lhs => rw [← h3]
    exact List.drop_left _ _
  | err => simp [mainLines, hb] at h
  | diverge => simp [mainLines, hb] at h

/-- Claim C6: the count stated in the third header line of the output
equals the number of data lines after the header — the file is exactly
the three header lines rendered for the length of its own tail. -/
theorem c6_header_count {db : List Synset} {file : List String}
    (h : mainLines db = .ok file) :
    file = headerLines (file.drop 3).length ++ file.drop 3 := by
  obtain ⟨ls, _, hfile, hdrop⟩ := mainLines_inv h
  rw [hdrop, hfile]

/-- Witness for C6 at the specification's three-sense example. -/
theorem c6_header_count_witness :
    exFile = headerLines (exFile.drop 3).length ++ exFile.drop 3 :=
  c6_header_count (show mainLines exDB = .ok exFile by decide)

/-- Claim C5: the data lines of the output, compared as raw strings
(code-point lexicographic order, Python's string comparison), are
non-decreasing from first to last. -/
theorem c5_data_lines_sorted {db : List Synset} {file : List String}
    (h : mainLines db = .ok file) :
    List.Sorted (fun a b => strLe a b = true) (file.drop 3) := by
  obtain ⟨ls, _, _, hdrop⟩ := mainLines_inv h
  rw [hdrop]
  exact sortLines_sorted ls

/-- Witness for C5 at the specification's three-sense example. -/
theorem c5_data_lines_sorted_witness :
    List.Sorted (fun a b => strLe a b = true) (exFile.drop 3) :=
  c5_data_lines_sorted (show mainLines exDB = .ok exFile by decide)

/-! ### Termination of the cycle-guarded walk -/

theorem chainSynsets_mono {db : List Synset} :
    ∀ fuel (c : Synset) (seen : List Nat), chainSynsets db fuel c seen ≠ .diverge →
      ∀ g, fuel ≤ g → chainSynsets db g c seen = chainSynsets db fuel c seen := by
  intro fuel
  induction fuel with
  | zero => intro c seen hnd; exact absurd rfl hnd
  | succ f ih =>
    intro c seen hnd g hg
    obtain ⟨g', rfl⟩ : ∃ g', g = g' + 1 := ⟨g - 1, by omega⟩
    have hfg : f ≤ g' := by omega
    cases hh : c.hypernyms with
    | nil => simp [chainSynsets, hh]
    | cons h0 t =>
      by_cases hs : h0 ∈ seen
      · simp [chainSynsets, hh, hs]
      · cases hf : findSynset db h0 with
        | none => simp [chainSynsets, hh, hs, hf]
        | some parent =>
          cases hl : parent.lemmas with
          | nil => simp [chainSynsets, hh, hs, hf, hl]
          | cons nm rest0 =>
            have hsub : chainSynsets db f parent (h0 :: seen) ≠ .diverge := by
              intro hd
              apply hnd
              simp only [chainSynsets, hh, hf, hl]
              rw [if_neg hs, hd]
            have hrw := ih parent (h0 :: seen) hsub g' hfg
            simp only [chainSynsets, hh, hf, hl]
            rw [if_neg hs, if_neg hs, hrw]

theorem chainSynsets_nondiverge {db : List Synset} :
    ∀ fuel (c : Synset) (seen : List Nat),
      ((db.map Synset.offset).toFinset \ seen.toFinset).card < fuel →
      chainSynsets db fuel c seen ≠ .diverge := by
  intro fuel
  induction fuel with
  | zero => intro c seen h; exact absurd h (Nat.not_lt_zero _)
  | succ f ih =>
    intro c seen hcard
    cases hh : c.hypernyms with
    | nil => simp [chainSynsets, hh]
    | cons h0 t =>
      by_cases hs : h0 ∈ seen
      · simp [chainSynsets, hh, hs]
      · cases hf : findSynset db h0 with
        | none => simp [chainSynsets, hh, hs, hf]
        | some parent =>
          cases hl : parent.lemmas with
          | nil => simp [chainSynsets, hh, hs, hf, hl]
          | cons nm rest0 =>
            have hpmem : parent ∈ db := List.mem_of_find?_eq_some hf
            have hpo : parent.offset = h0 := by simpa using List.find?_some hf
            have hmem : h0 ∈ (db.map Synset.offset).toFinset \ seen.toFinset := by
              rw [Finset.mem_sdiff, List.mem_toFinset, List.mem_toFinset]
              exact ⟨hpo ▸ List.mem_map_of_mem Synset.offset hpmem, hs⟩
            have hcard' :
                ((db.map Synset.offset).toFinset \ (h0 :: seen).toFinset).card < f := by
              rw [List.toFinset_cons, Finset.sdiff_insert]
              have hlt := Finset.card_erase_lt_of_mem hmem
              omega
            have hrec := ih parent (h0 :: seen) hcard'
            have hred : chainSynsets db (f + 1) c seen =
                match chainSynsets db f parent (h0 :: seen) with
                | .ok rest => .ok (parent :: rest)
                | .err => .err
                | .diverge => .diverge := by
              simp only [chainSynsets, hh, hf, hl]
              rw [if_neg hs]
            rw [hred]
            cases hcs : chainSynsets db f parent (h0 :: seen) with
            | ok rest => simp
            | err => simp
            | diverge => exact absurd hcs hrec

/-- Claim C4: the ancestor-chain walk terminates: any fuel at least
`chainFuel db` computes the same result, and that result is never the
fuel-exhaustion marker — even on cyclic hypernym data. -/
theorem c4_walk_terminates (db : List Synset) (s : Synset) (fuel : Nat)
    (h : chainFuel db ≤ fuel) :
    chainSynsets db fuel s [] = chainSynsets db (chainFuel db) s [] ∧
    chainSynsets db (chainFuel db) s [] ≠ .diverge := by
  have hnd : chainSynsets db (chainFuel db) s [] ≠ .diverge := by
    apply chainSynsets_nondiverge
    simp [chainFuel]
  exact ⟨chainSynsets_mono (chainFuel db) s [] hnd fuel h, hnd⟩

/-- Witness for C4 at a snapshot whose hypernym graph is a two-cycle. -/
theorem c4_walk_terminates_witness :
    chainSynsets cycDB 10 cycS [] = chainSynsets cycDB (chainFuel cycDB) cycS [] ∧
    chainSynsets cycDB (chainFuel cycDB) cycS [] ≠ .diverge :=
  c4_walk_terminates cycDB cycS 10 (by decide)

/-! ### The cycle guard tracks offsets, not lemma names -/

theorem chainSynsets_offsets_nodup {db : List Synset} :
    ∀ fuel (c : Synset) (seen : List Nat) (l : List Synset),
      chainSynsets db fuel c seen = .ok l →
      (l.map Synset.offset).Nodup ∧ ∀ p ∈ l, p.offset ∉ seen := by
  intro fuel
  induction fuel with
  | zero => intro c seen l h; simp [chainSynsets] at h
  | succ f ih =>
    intro c seen l h
    cases hh : c.hypernyms with
    | nil =>
      simp [chainSynsets, hh] at h
      subst h
      simp
    | cons h0 t =>
      by_cases hs : h0 ∈ seen
      · simp [chainSynsets, hh, hs] at h
        subst h
        simp
      · cases hf : findSynset db h0 with
        | none => simp [chainSynsets, hh, hs, hf] at h
        | some parent =>
          cases hl : parent.lemmas with
          | nil => simp [chainSynsets, hh, hs, hf, hl] at h
          | cons nm rest0 =>
            have hred : chainSynsets db (f + 1) c seen =
                match chainSynsets db f parent (h0 :: seen) with
                | .ok rest => .ok (parent :: rest)
                | .err => .err
                | .diverge => .diverge := by
              simp only [chainSynsets, hh, hf, hl]
              rw [if_neg hs]
            rw [hred] at h
            cases hcs : chainSynsets db f parent (h0 :: seen) with
            | ok rest =>
              rw [hcs] at h
              simp only [Res.ok.injEq] at h
              obtain ⟨hnd, hnotin⟩ := ih parent (h0 :: seen) rest hcs
              have hpo : parent.offset = h0 := by simpa using List.find?_some hf
              subst h
              constructor
              · simp only [List.map_cons, List.nodup_cons]
                refine ⟨?_, hnd⟩
                intro hmemo
                obtain ⟨p, hp, hpe⟩ := List.mem_map.mp hmemo
                exact hnotin p hp (by rw [hpe, hpo]; exact List.mem_cons_self _ _)
              · intro p hp
                rcases List.mem_cons.mp hp with rfl | hp'
                · rw [hpo]; exact hs
                · intro hins
                  exact hnotin p hp' (List.mem_cons_of_mem _ hins)
            | err => rw [hcs] at h; simp at h
            | diverge => rw [hcs] at h; simp at h

/-- Claim C1 (amended): the walk never records the same synset twice —
the offsets of the visited parents are pairwise distinct, because the
cycle guard tracks offsets.  (The rendered lemma names can repeat; see
the counterexample.) -/
theorem c1_visited_offsets_nodup (db : List Synset) (s : Synset) (l : List Synset)
    (h : chainSynsets db (chainFuel db) s [] = .ok l) :
    (l.map Synset.offset).Nodup :=
  (chainSynsets_offsets_nodup (chainFuel db) s [] l h).1

/-- Witness for the amended C1 on the two-cycle snapshot. -/
theorem c1_visited_offsets_nodup_witness :
    (([⟨2, ["b"], [1]⟩, ⟨1, ["a"], [2]⟩] : List Synset).map Synset.offset).Nodup :=
  c1_visited_offsets_nodup cycDB cycS [⟨2, ["b"], [1]⟩, ⟨1, ["a"], [2]⟩] (by decide)

/-- Counterexample to C1 as stated: in `homDB` two distinct ancestors
(offsets 1 and 2) share the first lemma "x", so the chain of `homS`
repeats the canonical term "x". -/
theorem c1_repeated_term_cex :
    getHypernymChain homDB homS = .ok ["x", "x"] ∧ ¬ (["x", "x"] : List String).Nodup :=
  ⟨by decide, by decide⟩

/-! ### The visited set starts empty: a self-hypernym sense is appended once -/

/-- Claim C9: the resolver starts with an empty visited set, which does
not contain the starting sense's offset; a sense that is its own first
hypernym therefore has its own canonical lemma appended exactly once,
and the walk then stops at the now-visited offset. -/
theorem c9_self_loop (db : List Synset) (s : Synset) (t : List Nat)
    (h1 : s.hypernyms = s.offset :: t) (h2 : findSynset db s.offset = some s)
    (h3 : s.lemmas ≠ []) :
    getHypernymChain db s = .ok [s.lemmas.headD ""] := by
  have hmem : s ∈ db := List.mem_of_find?_eq_some h2
  have hcard : 1 ≤ (db.map Synset.offset).toFinset.card := by
    have hin : s.offset ∈ (db.map Synset.offset).toFinset := by
      rw [List.mem_toFinset]
      exact List.mem_map_of_mem _ hmem
    exact Finset.card_pos.mpr ⟨_, hin⟩
  obtain ⟨k, hk⟩ : ∃ k, chainFuel db = k + 2 :=
    ⟨(db.map Synset.offset).toFinset.card - 1, by unfold chainFuel; omega⟩
  cases hl : s.lemmas with
  | nil => exact absurd hl h3
  | cons nm rest =>
    have hstep : chainSynsets db (k + 2) s [] = .ok [s] := by
      simp [chainSynsets, h1, h2, hl]
    unfold getHypernymChain
    rw [hk, hstep]
    simp [hl]

/-- Witness for C9: the single synset of `selfDB` lists itself as its
first hypernym; its chain is exactly its own canonical lemma. -/
theorem c9_self_loop_witness :
    getHypernymChain selfDB selfS = .ok [selfS.lemmas.headD ""] :=
  c9_self_loop selfDB selfS [] rfl (by decide) (by decide)

/-! ### The 8-digit zero-padded sense id -/

theorem digitChar_val : ∀ d, d < 10 → (Nat.digitChar d).toNat - 48 = d := by decide

theorem decChars_length_le :
    ∀ fuel n k, n ≤ fuel → n < 10 ^ k → (decChars fuel n).length ≤ k := by
  intro fuel
  induction fuel with
  | zero =>
    intro n k hn _
    have : n = 0 := by omega
    simp [decChars]
  | succ f ih =>
    intro n k hn hk
    by_cases h0 : n = 0
    · simp [decChars, h0]
    · have hk0 : k ≠ 0 := by
        intro hk0
        rw [hk0, pow_zero] at hk
        omega
      obtain ⟨k', rfl⟩ : ∃ k', k = k' + 1 := ⟨k - 1, by omega⟩
      have hk' : n / 10 < 10 ^ k' := by
        rw [pow_succ] at hk
        omega
      have hrec := ih (n / 10) k' (by omega) hk'
      simp only [decChars, if_neg h0, List.length_cons]
      omega

theorem decStr_length_le {n : Nat} (h : n < 10 ^ 8) : (decStr n).length ≤ 8 := by
  unfold decStr
  by_cases h0 : n = 0
  · rw [if_pos h0]; decide
  · rw [if_neg h0]
    have hle := decChars_length_le n n 8 le_rfl h
    rw [String.length_mk, List.length_reverse]
    exact hle

theorem formatOffset_length {n : Nat} (h : n < 10 ^ 8) : (formatOffset n).length = 8 := by
  unfold formatOffset
  rw [String.length_append, String.length_mk, List.length_replicate]
  have := decStr_length_le h
  omega

theorem decChars_foldl :
    ∀ fuel n, n ≤ fuel →
      List.foldl (fun a c => 10 * a + (c.toNat - 48)) 0 (decChars fuel n).reverse = n := by
  intro fuel
  induction fuel with
  | zero =>
    intro n hn
    have : n = 0 := by omega
    simp [decChars, this]
  | succ f ih =>
    intro n hn
    by_cases h0 : n = 0
    · simp [decChars, h0]
    · have hrec := ih (n / 10) (by omega)
      rw [show decChars (f + 1) n = Nat.digitChar (n % 10) :: decChars f (n / 10) from by
        simp [decChars, h0]]
      rw [List.reverse_cons, List.foldl_append, hrec]
      simp only [List.foldl_cons, List.foldl_nil]
      have hdig := digitChar_val (n % 10) (Nat.mod_lt _ (by norm_num))
      omega

theorem decValue_decStr (n : Nat) : decValue (decStr n) = n := by
  unfold decValue decStr
  by_cases h0 : n = 0
  · rw [if_pos h0, h0]; rfl
  · rw [if_neg h0]
    exact decChars_foldl n n le_rfl

theorem foldl_replicate_zeros :
    ∀ k, List.foldl (fun a c => 10 * a + (c.toNat - 48)) 0 (List.replicate k '0') = 0 := by
  intro k
  induction k with
  | zero => rfl
  | succ k ih =>
    rw [List.replicate_succ, List.foldl_cons]
    have h0 : (10 * 0 + ('0'.toNat - 48)) = 0 := rfl
    rw [h0]
    exact ih

/-- Claim C8 (amended): for every offset below 10^8, the rendered id has
exactly 8 characters, and for every offset (padded or not) the decimal
value of the rendered id equals the offset.  `f"{offset:08d}"` pads to a
minimum width of 8, so offsets ≥ 10^8 render with more than 8
characters — the universal 8-character clause of the claim fails there. -/
theorem c8_id_format (n : Nat) :
    (n < 10 ^ 8 → (formatOffset n).length = 8) ∧ decValue (formatOffset n) = n := by
  refine ⟨fun h => formatOffset_length h, ?_⟩
  unfold formatOffset decValue
  rw [String.data_append]
  have hmk : (String.mk (List.replicate (8 - (decStr n).length) '0')).data
      = List.replicate (8 - (decStr n).length) '0' := rfl
  rw [hmk, List.foldl_append, foldl_replicate_zeros]
  exact decValue_decStr n

/-- Witness for C8 at offset 2 (the canine sense of the example). -/
theorem c8_id_format_witness :
    (2 < 10 ^ 8 ∧ (formatOffset 2).length = 8) ∧ decValue (formatOffset 2) = 2 :=
  ⟨⟨by norm_num, (c8_id_format 2).1 (by norm_num)⟩, (c8_id_format 2).2⟩

/-- Counterexample to C8 as stated: offset 10^8 renders with 9
characters, not 8 — Python's `08d` is a minimum width, not a fixed one. -/
theorem c8_not_always_8_chars : (formatOffset (10 ^ 8)).length ≠ 8 := by decide

/-! ### Deduplication: unique terms, first sense in enumeration order wins -/

theorem tab_data : ("\t" : String).data = ['\t'] := rfl

theorem stringMk_data (s : String) : String.mk s.data = s := rfl

theorem takeWhile_append_stop {p : Char → Bool} :
    ∀ (xs : List Char) (y : Char) (ys : List Char),
      (∀ x ∈ xs, p x = true) → p y = false → (xs ++ y :: ys).takeWhile p = xs := by
  intro xs
  induction xs with
  | nil =>
    intro y ys _ hy
    simp [List.takeWhile_cons, hy]
  | cons x xs ih =>
    intro y ys hall hy
    have hx : p x = true := hall x (List.mem_cons_self _ _)
    simp [List.takeWhile_cons, hx,
      ih y ys (fun a ha => hall a (List.mem_cons_of_mem _ ha)) hy]

theorem firstField_renderLine (nm idStr chStr : String)
    (h : ∀ c ∈ nm.data, c ≠ '\t') :
    firstField (renderLine nm idStr chStr) = nm := by
  have hdata : (renderLine nm idStr chStr).data
      = nm.data ++ '\t' :: (idStr.data ++ '\t' :: chStr.data) := by
    simp [renderLine, String.data_append, tab_data]
  unfold firstField
  rw [hdata, takeWhile_append_stop nm.data '\t' _ ?_ rfl]
  intro x hx
  simpa using h x hx

theorem find?_name_mem {l : List Synset} {nm : String} {s : Synset}
    (hfind : List.find? (fun t => t.lemmas.head? == some nm) l = some s) :
    nm ∈ s.lemmas := by
  have hp := List.find?_some hfind
  simp only [beq_iff_eq] at hp
  cases hsl : s.lemmas with
  | nil => rw [hsl] at hp; simp at hp
  | cons a as =>
    rw [hsl] at hp
    simp only [List.head?_cons, Option.some.injEq] at hp
    rw [hp]
    exact List.mem_cons_self _ _

theorem buildLines_mem {db : List Synset} :
    ∀ (l : List Synset) (seen ls : List String),
      buildLines db l seen = .ok ls →
      ∀ line ∈ ls, ∃ nm s ch, nm ∉ seen ∧
        List.find? (fun t => t.lemmas.head? == some nm) l = some s ∧
        getHypernymChain db s = .ok ch ∧
        line = renderLine nm (formatOffset s.offset) (renderChain ch) := by
  intro l
  induction l with
  | nil =>
    intro seen ls h line hline
    simp [buildLines] at h
    subst h
    simp at hline
  | cons s rest ih =>
    intro seen ls h line hline
    cases hl : s.lemmas with
    | nil => simp [buildLines, hl] at h
    | cons nm0 lrest =>
      simp only [buildLines, hl] at h
      by_cases hs : nm0 ∈ seen
      · rw [if_pos hs] at h
        obtain ⟨nm, s', ch, hnm, hfind, hch, hline'⟩ := ih seen ls h line hline
        refine ⟨nm, s', ch, hnm, ?_, hch, hline'⟩
        have hne : nm ≠ nm0 := fun he => hnm (he ▸ hs)
        rw [List.find?_cons_of_neg]
        · exact hfind
        · rw [hl]
          simp
          exact fun he => hne he.symm
      · rw [if_neg hs] at h
        cases hch0 : getHypernymChain db s with
        | ok ch0 =>
          simp only [hch0] at h
          cases hrec : buildLines db rest (nm0 :: seen) with
          | ok ls' =>
            simp only [hrec, Res.ok.injEq] at h
            subst h
            rcases List.mem_cons.mp hline with rfl | hline'
            · refine ⟨nm0, s, ch0, hs, ?_, hch0, rfl⟩
              rw [List.find?_cons_of_pos]
              rw [hl]
              simp
            · obtain ⟨nm, s', ch, hnm, hfind, hch, hline''⟩ :=
                ih (nm0 :: seen) ls' hrec line hline'
              have hnm0 : nm ≠ nm0 := fun he => hnm (by rw [he] at *; exact List.mem_cons_self _ _)
              have hnseen : nm ∉ seen := fun hin => hnm (List.mem_cons_of_mem _ hin)
              refine ⟨nm, s', ch, hnseen, ?_, hch, hline''⟩
              rw [List.find?_cons_of_neg]
              · exact hfind
              · rw [hl]
                simp
                exact fun he => hnm0 he.symm
          | err => simp only [hrec] at h; simp at h
          | diverge => simp only [hrec] at h; simp at h
        | err => simp only [hch0] at h; simp at h
        | diverge => simp only [hch0] at h; simp at h

theorem buildLines_pairwise {db : List Synset} :
    ∀ (l : List Synset) (seen ls : List String),
      (∀ s ∈ l, ∀ nm ∈ s.lemmas, ∀ c ∈ nm.data, c ≠ '\t') →
      buildLines db l seen = .ok ls →
      List.Pairwise (fun a b => firstField a ≠ firstField b) ls := by
  intro l
  induction l with
  | nil =>
    intro seen ls _ h
    simp [buildLines] at h
    subst h
    simp
  | cons s rest ih =>
    intro seen ls hnt h
    have hnt' : ∀ s' ∈ rest, ∀ nm ∈ s'.lemmas, ∀ c ∈ nm.data, c ≠ '\t' :=
      fun s' hs' => hnt s' (List.mem_cons_of_mem _ hs')
    cases hl : s.lemmas with
    | nil => simp [buildLines, hl] at h
    | cons nm0 lrest =>
      simp only [buildLines, hl] at h
      by_cases hs : nm0 ∈ seen
      · rw [if_pos hs] at h
        exact ih seen ls hnt' h
      · rw [if_neg hs] at h
        cases hch0 : getHypernymChain db s with
        | ok ch0 =>
          simp only [hch0] at h
          cases hrec : buildLines db rest (nm0 :: seen) with
          | ok ls' =>
            simp only [hrec, Res.ok.injEq] at h
            subst h
            rw [List.pairwise_cons]
            constructor
            · intro b hb
              obtain ⟨nm, s', ch, hnm, hfind, hch, hbe⟩ :=
                buildLines_mem rest (nm0 :: seen) ls' hrec b hb
              have htab0 : ∀ c ∈ nm0.data, c ≠ '\t' :=
                hnt s (List.mem_cons_self _ _) nm0 (by rw [hl]; exact List.mem_cons_self _ _)
              have hff0 : firstField (renderLine nm0 (formatOffset s.offset) (renderChain ch0))
                  = nm0 := firstField_renderLine _ _ _ htab0
              have hs'mem : s' ∈ rest := List.mem_of_find?_eq_some hfind
              have htabb : ∀ c ∈ nm.data, c ≠ '\t' :=
                hnt' s' hs'mem nm (find?_name_mem hfind)
              have hffb : firstField b = nm := by
                rw [hbe]
                exact firstField_renderLine _ _ _ htabb
              rw [hff0, hffb]
              intro he
              apply hnm
              rw [← he]
              exact List.mem_cons_self _ _
            · exact ih (nm0 :: seen) ls' hnt' hrec
          | err => simp only [hrec] at h; simp at h
          | diverge => simp only [hrec] at h; simp at h
        | err => simp only [hch0] at h; simp at h
        | diverge => simp only [hch0] at h; simp at h

/-- Claim C3: in the output the term field (first tab-delimited column)
of distinct data lines differs, and every data line is produced by the
first sense in enumeration order whose canonical (first-listed) lemma
equals that term — later senses with the same canonical term produce no
line.  (Canonical terms are tab-free, as the controlled WordNet
vocabulary guarantees.) -/
theorem c3_unique_first_wins {db : List Synset} {file : List String}
    (hnt : ∀ s ∈ db, ∀ nm ∈ s.lemmas, ∀ c ∈ nm.data, c ≠ '\t')
    (h : mainLines db = .ok file) :
    List.Pairwise (fun a b => firstField a ≠ firstField b) (file.drop 3) ∧
    ∀ line ∈ file.drop 3, ∃ s ch,
      List.find? (fun t => t.lemmas.head? == some (firstField line)) db = some s ∧
      getHypernymChain db s = .ok ch ∧
      line = renderLine (firstField line) (formatOffset s.offset) (renderChain ch) := by
  obtain ⟨ls, hb, _, hdrop⟩ := mainLines_inv h
  rw [hdrop]
  have hperm : (sortLines ls).Perm ls := sortLines_perm ls
  constructor
  · exact (List.Perm.pairwise_iff (fun hxy => Ne.symm hxy) hperm).mpr
      (buildLines_pairwise db [] ls hnt hb)
  · intro line hline
    have hline' : line ∈ ls := hperm.mem_iff.mp hline
    obtain ⟨nm, s, ch, _, hfind, hch, hbe⟩ := buildLines_mem db [] ls hb line hline'
    have hs_mem : s ∈ db := List.mem_of_find?_eq_some hfind
    have htab : ∀ c ∈ nm.data, c ≠ '\t' := hnt s hs_mem nm (find?_name_mem hfind)
    have hff : firstField line = nm := by
      rw [hbe]
      exact firstField_renderLine _ _ _ htab
    refine ⟨s, ch, ?_, hch, ?_⟩
    · rw [hff]; exact hfind
    · rw [hff]; exact hbe

/-- Witness for C3 at the specification's three-sense example. -/
theorem c3_unique_first_wins_witness :
    List.Pairwise (fun a b => firstField a ≠ firstField b) (exFile.drop 3) ∧
    ∀ line ∈ exFile.drop 3, ∃ s ch,
      List.find? (fun t => t.lemmas.head? == some (firstField line)) exDB = some s ∧
      getHypernymChain exDB s = .ok ch ∧
      line = renderLine (firstField line) (formatOffset s.offset) (renderChain ch) :=
  c3_unique_first_wins (by decide) (by decide)

/-! ### Empty lemma lists abort the run; nonempty ones never fail -/

theorem chainSynsets_noerr {db : List Synset} (hc : Closed db)
    (hl : ∀ s ∈ db, s.lemmas ≠ []) :
    ∀ fuel (c : Synset) (seen : List Nat), c ∈ db → chainSynsets db fuel c seen ≠ .err := by
  intro fuel
  induction fuel with
  | zero => intro c seen _; simp [chainSynsets]
  | succ f ih =>
    intro c seen hcdb
    cases hh : c.hypernyms with
    | nil => simp [chainSynsets, hh]
    | cons h0 t =>
      by_cases hs : h0 ∈ seen
      · simp [chainSynsets, hh, hs]
      · cases hf : findSynset db h0 with
        | none =>
          have hsome := hc c hcdb h0 (by rw [hh]; exact List.mem_cons_self _ _)
          rw [hf] at hsome
          simp at hsome
        | some parent =>
          cases hlem : parent.lemmas with
          | nil => exact absurd hlem (hl parent (List.mem_of_find?_eq_some hf))
          | cons nm rest0 =>
            have hrec := ih parent (h0 :: seen) (List.mem_of_find?_eq_some hf)
            have hred : chainSynsets db (f + 1) c seen =
                match chainSynsets db f parent (h0 :: seen) with
                | .ok rest => .ok (parent :: rest)
                | .err => .err
                | .diverge => .diverge := by
              simp only [chainSynsets, hh, hf, hlem]
              rw [if_neg hs]
            rw [hred]
            cases hcs : chainSynsets db f parent (h0 :: seen) with
            | ok rest => simp
            | err => exact absurd hcs hrec
            | diverge => simp

theorem getHypernymChain_ok {db : List Synset} (hc : Closed db)
    (hl : ∀ s ∈ db, s.lemmas ≠ []) {s : Synset} (hs : s ∈ db) :
    ∃ ch, getHypernymChain db s = .ok ch := by
  have hnd : chainSynsets db (chainFuel db) s [] ≠ .diverge := by
    apply chainSynsets_nondiverge
    simp [chainFuel]
  have hne : chainSynsets db (chainFuel db) s [] ≠ .err :=
    chainSynsets_noerr hc hl (chainFuel db) s [] hs
  cases hcs : chainSynsets db (chainFuel db) s [] with
  | ok l => exact ⟨l.map (fun p => p.lemmas.headD ""), by simp [getHypernymChain, hcs]⟩
  | err => exact absurd hcs hne
  | diverge => exact absurd hcs hnd

theorem getHypernymChain_nondiverge (db : List Synset) (s : Synset) :
    getHypernymChain db s ≠ .diverge := by
  have hnd : chainSynsets db (chainFuel db) s [] ≠ .diverge := by
    apply chainSynsets_nondiverge
    simp [chainFuel]
  unfold getHypernymChain
  cases hcs : chainSynsets db (chainFuel db) s [] with
  | ok l => simp
  | err => simp
  | diverge => exact absurd hcs hnd

theorem buildLines_ok {db : List Synset} (hc : Closed db)
    (hl : ∀ s ∈ db, s.lemmas ≠ []) :
    ∀ (l : List Synset) (seen : List String), (∀ s ∈ l, s ∈ db) →
      ∃ ls, buildLines db l seen = .ok ls := by
  intro l
  induction l with
  | nil => intro seen _; exact ⟨[], rfl⟩
  | cons s rest ih =>
    intro seen hsub
    have hsdb : s ∈ db := hsub s (List.mem_cons_self _ _)
    have hsub' : ∀ s' ∈ rest, s' ∈ db := fun s' h => hsub s' (List.mem_cons_of_mem _ h)
    cases hlem : s.lemmas with
    | nil => exact absurd hlem (hl s hsdb)
    | cons nm0 lrest =>
      by_cases hseen : nm0 ∈ seen
      · obtain ⟨ls, hls⟩ := ih seen hsub'
        refine ⟨ls, ?_⟩
        simp only [buildLines, hlem]
        rw [if_pos hseen]
        exact hls
      · obtain ⟨ch, hch⟩ := getHypernymChain_ok hc hl hsdb
        obtain ⟨ls, hls⟩ := ih (nm0 :: seen) hsub'
        refine ⟨renderLine nm0 (formatOffset s.offset) (renderChain ch) :: ls, ?_⟩
        simp only [buildLines, hlem]
        rw [if_neg hseen]
        simp only [hch, hls]

theorem buildLines_not_ok {db : List Synset} :
    ∀ (l : List Synset) (seen : List String), (∃ s ∈ l, s.lemmas = []) →
      ∀ ls, buildLines db l seen ≠ .ok ls := by
  intro l
  induction l with
  | nil =>
    intro seen hex ls _
    obtain ⟨s0, hs0, _⟩ := hex
    simp at hs0
  | cons s rest ih =>
    intro seen hex ls h
    obtain ⟨s0, hs0mem, hs0⟩ := hex
    rcases List.mem_cons.mp hs0mem with rfl | hmem
    · simp [buildLines, hs0] at h
    · cases hlem : s.lemmas with
      | nil => simp [buildLines, hlem] at h
      | cons nm0 lrest =>
        simp only [buildLines, hlem] at h
        by_cases hseen : nm0 ∈ seen
        · rw [if_pos hseen] at h
          exact ih seen ⟨s0, hmem, hs0⟩ ls h
        · rw [if_neg hseen] at h
          cases hch : getHypernymChain db s with
          | ok ch =>
            simp only [hch] at h
            cases hrec : buildLines db rest (nm0 :: seen) with
            | ok ls' => exact ih (nm0 :: seen) ⟨s0, hmem, hs0⟩ ls' hrec
            | err => simp only [hrec] at h; simp at h
            | diverge => simp only [hrec] at h; simp at h
          | err => simp only [hch] at h; simp at h
          | diverge => simp only [hch] at h; simp at h

theorem buildLines_nondiverge {db : List Synset} :
    ∀ (l : List Synset) (seen : List String), buildLines db l seen ≠ .diverge := by
  intro l
  induction l with
  | nil => intro seen; simp [buildLines]
  | cons s rest ih =>
    intro seen
    cases hlem : s.lemmas with
    | nil => simp [buildLines, hlem]
    | cons nm0 lrest =>
      simp only [buildLines, hlem]
      by_cases hseen : nm0 ∈ seen
      · rw [if_pos hseen]; exact ih seen
      · rw [if_neg hseen]
        cases hch : getHypernymChain db s with
        | ok ch =>
          cases hrec : buildLines db rest (nm0 :: seen) with
          | ok ls' => simp
          | err => simp
          | diverge => exact absurd hrec (ih (nm0 :: seen))
        | err => simp
        | diverge => exact absurd hch (getHypernymChain_nondiverge db s)

/-- Claim C10: the program assumes every sense and every reached
ancestor has at least one lemma.  Under that precondition (and every
hypernym reference resolving, as nltk guarantees) the run succeeds; if
any enumerated sense has an empty lemma list, the run aborts with an
error (`lemmas()[0]` raises) instead of skipping that sense. -/
theorem c10_empty_lemmas (db : List Synset) :
    ((∀ s ∈ db, s.lemmas ≠ []) → Closed db → ∃ file, mainLines db = .ok file) ∧
    ((∃ s ∈ db, s.lemmas = []) → mainLines db = .err) := by
  constructor
  · intro hl hc
    obtain ⟨ls, hls⟩ := buildLines_ok hc hl db [] (fun s h => h)
    exact ⟨headerLines (sortLines ls).length ++ sortLines ls, by simp [mainLines, hls]⟩
  · intro hex
    have hnok := @buildLines_not_ok db db [] hex
    have hnd := @buildLines_nondiverge db db []
    cases hm : buildLines db db [] with
    | ok ls => exact absurd hm (hnok ls)
    | err => simp [mainLines, hm]
    | diverge => exact absurd hm hnd

/-- Witness for C10: the example snapshot runs to completion, while a
snapshot containing a lemma-less sense aborts with an error. -/
theorem c10_empty_lemmas_witness :
    (∃ file, mainLines exDB = .ok file) ∧ mainLines badDB = .err :=
  ⟨(c10_empty_lemmas exDB).1 (by decide) (show Closed exDB by unfold Closed; decide),
   (c10_empty_lemmas badDB).2 ⟨⟨5, [], []⟩, by decide, rfl⟩⟩

/-! ### Determinism: the output depends only on the snapshot -/

theorem chainSynsetsF_eq {db : List Synset} :
    ∀ fuel (c : Synset) (sF : Finset Nat) (sL : List Nat),
      (∀ o, o ∈ sF ↔ o ∈ sL) →
      chainSynsetsF db fuel c sF = chainSynsets db fuel c sL := by
  intro fuel
  induction fuel with
  | zero => intro c sF sL _; rfl
  | succ f ih =>
    intro c sF sL hiff
    cases hh : c.hypernyms with
    | nil => simp [chainSynsetsF, chainSynsets, hh]
    | cons h0 t =>
      by_cases hs : h0 ∈ sL
      · have hsF : h0 ∈ sF := (hiff h0).mpr hs
        simp [chainSynsetsF, chainSynsets, hh, hs, hsF]
      · have hsF : h0 ∉ sF := fun hin => hs ((hiff h0).mp hin)
        cases hf : findSynset db h0 with
        | none => simp [chainSynsetsF, chainSynsets, hh, hs, hsF, hf]
        | some parent =>
          cases hlem : parent.lemmas with
          | nil => simp [chainSynsetsF, chainSynsets, hh, hs, hsF, hf, hlem]
          | cons nm rest0 =>
            have hiff' : ∀ o, o ∈ insert h0 sF ↔ o ∈ h0 :: sL := by
              intro o
              simp [Finset.mem_insert, hiff o]
            have hrec := ih parent (insert h0 sF) (h0 :: sL) hiff'
            simp only [chainSynsetsF, chainSynsets, hh, hf, hlem]
            rw [if_neg hs, if_neg hsF, hrec]

theorem getHypernymChainF_eq (db : List Synset) (s : Synset) :
    getHypernymChainF db s = getHypernymChain db s := by
  unfold getHypernymChainF getHypernymChain
  rw [chainSynsetsF_eq (chainFuel db) s ∅ [] (by simp)]

theorem buildLinesF_eq {db : List Synset} :
    ∀ (l : List Synset) (sF : Finset String) (sL : List String),
      (∀ nm, nm ∈ sF ↔ nm ∈ sL) →
      buildLinesF db l sF = buildLines db l sL := by
  intro l
  induction l with
  | nil => intro sF sL _; rfl
  | cons s rest ih =>
    intro sF sL hiff
    cases hlem : s.lemmas with
    | nil => simp [buildLinesF, buildLines, hlem]
    | cons nm0 lrest =>
      by_cases hs : nm0 ∈ sL
      · have hsF : nm0 ∈ sF := (hiff nm0).mpr hs
        simp only [buildLinesF, buildLines, hlem]
        rw [if_pos hsF, if_pos hs]
        exact ih sF sL hiff
      · have hsF : nm0 ∉ sF := fun hin => hs ((hiff nm0).mp hin)
        have hiff' : ∀ nm, nm ∈ insert nm0 sF ↔ nm ∈ nm0 :: sL := by
          intro nm
          simp [Finset.mem_insert, hiff nm]
        simp only [buildLinesF, buildLines, hlem]
        rw [if_neg hsF, if_neg hs, getHypernymChainF_eq, ih (insert nm0 sF) (nm0 :: sL) hiff']

theorem mainLinesF_eq (db : List Synset) : mainLinesF db = mainLines db := by
  unfold mainLinesF mainLines
  rw [@buildLinesF_eq db db ∅ [] (by simp)]

/-- Claim C7: determinism — on identical snapshots two runs produce
byte-identical output.  The run is a pure function of the snapshot; in
particular the Python `set`s are used only through membership and
insertion, so a run whose visited sets are `Finset`s byte-for-byte
equals a run whose visited sets are lists. -/
theorem c7_deterministic (db1 db2 : List Synset) (h : db1 = db2) :
    mainBytesF db1 = mainBytes db2 := by
  subst h
  unfold mainBytesF mainBytes
  rw [mainLinesF_eq]

/-- Witness for C7 at the specification's three-sense example. -/
theorem c7_deterministic_witness : mainBytesF exDB = mainBytes exDB :=
  c7_deterministic exDB exDB rfl

/-! ### Opening with mode "w" truncates: a partial write loses the prior file -/

/-- Claim C2 is violated by the code (code bug): `main` opens the output
path with mode `"w"`, which truncates the target immediately.  On the
example snapshot, a run that fails after its first write leaves the file
holding just the first header chunk — neither the complete output nor
the prior contents ("old"). -/
theorem c2_truncation_bug :
    mainChunks exDB = .ok exChunks ∧
    runWrite (some "old") exChunks (some 1) = some "# WordNet nouns vocabulary for Photon\n" ∧
    runWrite (some "old") exChunks (some 1) ≠ some (String.join exChunks) ∧
    runWrite (some "old") exChunks (some 1) ≠ some "old" :=
  ⟨by decide, by decide, by decide, by decide⟩
